import Mathlib

/-!
Verification of the Veonix structured-output recovery pipeline
(`app/services/gemini_client.py`).

The pipeline takes the raw text returned by the vision model and either
produces a decoded JSON structure or a classified 502 error.  We embed the
relevant Python code shallowly:

* Python strings become `List Char`;
* `str.strip`, `str.replace`, `str.count` become the functions below;
* `json.loads` (strict decoding of the Python standard library, including
  its `NaN` / `Infinity` extensions) becomes `jsonLoads`;
* `re.search` of the one pattern used by the source becomes
  `reSearchBraceAny`;
* `HTTPException(status_code=502, detail=...)` raised / re-raised becomes
  an `Except PipelineError` result.

Numbers are modelled exactly: integer literals as `Jval.num`, literals with
a fraction or exponent as `Jval.fnum m e` denoting `m * 10 ^ e`; whitespace
sets are the ASCII ones.
-/

namespace Veonix

/-- ASCII whitespace stripped by Python `str.strip()`. -/
def isPySpace (c : Char) : Bool :=
  c = ' ' || c = '\t' || c = '\n' || c = '\r' || c = Char.ofNat 11 || c = Char.ofNat 12

/-- Whitespace accepted between JSON tokens by `json.loads`. -/
def isJsonSpace (c : Char) : Bool :=
  c = ' ' || c = '\t' || c = '\n' || c = '\r'

/-- Python `str.strip()`: drop leading and trailing whitespace. -/
def pyStrip (t : List Char) : List Char :=
  ((t.dropWhile isPySpace).reverse.dropWhile isPySpace).reverse

/-- Worker for `replaceList`, structurally recursive on a fuel bound on
the input length: scan left to right; at an occurrence of the (nonempty)
pattern emit the replacement and continue after the occurrence, without
rescanning the emitted replacement. -/
def replaceListGo (pat rep : List Char) : Nat → List Char → List Char
  | 0, l => l
  | _ + 1, [] => []
  | f + 1, c :: rest =>
    if pat ≠ [] ∧ List.isPrefixOf pat (c :: rest) then
      rep ++ replaceListGo pat rep f (List.drop pat.length (c :: rest))
    else
      c :: replaceListGo pat rep f rest

/-- Python `str.replace(pat, rep)`: leftmost non-overlapping occurrences,
one pass, the emitted replacement is not rescanned. -/
def replaceList (pat rep : List Char) (l : List Char) : List Char :=
  replaceListGo pat rep l.length l

/-- The fuel of the worker is irrelevant once it covers the input
length. -/
theorem replaceListGo_congr (pat rep : List Char) :
    ∀ f1 : Nat, ∀ f2 : Nat, ∀ l : List Char, l.length ≤ f1 → l.length ≤ f2 →
      replaceListGo pat rep f1 l = replaceListGo pat rep f2 l := by
  intro f1
  induction f1 with
  | zero =>
    intro f2 l h1 _
    have : l = [] := List.eq_nil_of_length_eq_zero (Nat.le_zero.mp h1)
    subst this
    cases f2 <;> rfl
  | succ f ih =>
    intro f2 l h1 h2
    cases l with
    | nil => cases f2 <;> rfl
    | cons c rest =>
      cases f2 with
      | zero => exact absurd h2 (by simp)
      | succ g =>
        simp only [replaceListGo]
        by_cases hp : pat ≠ [] ∧ List.isPrefixOf pat (c :: rest)
        · rw [if_pos hp, if_pos hp]
          have hlen : (List.drop pat.length (c :: rest)).length ≤ f ∧
              (List.drop pat.length (c :: rest)).length ≤ g := by
            have hple : 0 < pat.length := List.length_pos.mpr hp.1
            simp only [List.length_drop, List.length_cons]
            simp only [List.length_cons] at h1 h2
            omega
          rw [ih g _ hlen.1 hlen.2]
        · rw [if_neg hp, if_neg hp]
          have hr1 : rest.length ≤ f := by
            simp only [List.length_cons] at h1; omega
          have hr2 : rest.length ≤ g := by
            simp only [List.length_cons] at h2; omega
          rw [ih g rest hr1 hr2]

/-- Unfolding equation of `replaceList` at a cons cell. -/
theorem replaceList_cons (pat rep : List Char) (c : Char) (rest : List Char) :
    replaceList pat rep (c :: rest) =
      if pat ≠ [] ∧ List.isPrefixOf pat (c :: rest) then
        rep ++ replaceList pat rep (List.drop pat.length (c :: rest))
      else
        c :: replaceList pat rep rest := by
  unfold replaceList
  simp only [List.length_cons, replaceListGo]
  by_cases hp : pat ≠ [] ∧ List.isPrefixOf pat (c :: rest)
  · rw [if_pos hp, if_pos hp]
    have hple : 0 < pat.length := List.length_pos.mpr hp.1
    rw [replaceListGo_congr pat rep rest.length (List.drop pat.length (c :: rest)).length _
      (by simp only [List.length_drop, List.length_cons]; omega) (Nat.le_refl _)]
  · rw [if_neg hp, if_neg hp]

/-- JSON values as decoded by Python `json.loads`: objects keep insertion
order with a later duplicate key overwriting the value in place (the
behaviour of `dict` assignment); `fnum m e` stands for the float
`m * 10 ^ e`; `nan` / `inf` model the accepted `NaN` / `Infinity` /
`-Infinity` extensions. -/
inductive Jval where
  | null : Jval
  | bool : Bool → Jval
  | num : Int → Jval
  | fnum : Int → Int → Jval
  | nan : Jval
  | inf : Bool → Jval
  | str : List Char → Jval
  | arr : List Jval → Jval
  | obj : List (List Char × Jval) → Jval

/-- `dict` assignment: overwrite in place on a duplicate key, else append. -/
def objInsert (k : List Char) (v : Jval) : List (List Char × Jval) → List (List Char × Jval)
  | [] => [(k, v)]
  | (k0, v0) :: rest =>
    if k0 = k then (k0, v) :: rest else (k0, v0) :: objInsert k v rest

/-- Skip JSON whitespace. -/
def skipWs (t : List Char) : List Char := t.dropWhile isJsonSpace

/-- Value of a hexadecimal digit. -/
def hexVal (c : Char) : Option Nat :=
  if c.isDigit then some (c.toNat - 48)
  else if 'a' ≤ c ∧ c ≤ 'f' then some (c.toNat - 87)
  else if 'A' ≤ c ∧ c ≤ 'F' then some (c.toNat - 55)
  else none

/-- The character denoted by a single-character JSON escape. -/
def escChar (e : Char) : Option Char :=
  if e = '"' then some '"'
  else if e = '\\' then some '\\'
  else if e = '/' then some '/'
  else if e = 'b' then some (Char.ofNat 8)
  else if e = 'f' then some (Char.ofNat 12)
  else if e = 'n' then some '\n'
  else if e = 'r' then some '\r'
  else if e = 't' then some '\t'
  else none

/-- Body of a JSON string literal, after the opening quote: returns the
decoded characters and the input after the closing quote.  Strict mode:
raw control characters are rejected. -/
def parseStrBody : List Char → Option (List Char × List Char)
  | [] => none
  | '"' :: r => some ([], r)
  | '\\' :: 'u' :: h1 :: h2 :: h3 :: h4 :: r =>
    match hexVal h1, hexVal h2, hexVal h3, hexVal h4 with
    | some a, some b, some c, some d =>
      (parseStrBody r).map (fun p => (Char.ofNat (((a * 16 + b) * 16 + c) * 16 + d) :: p.1, p.2))
    | _, _, _, _ => none
  | '\\' :: e :: r =>
    (escChar e).bind (fun ch => (parseStrBody r).map (fun p => (ch :: p.1, p.2)))
  | c :: r =>
    if c.toNat < 32 then none
    else (parseStrBody r).map (fun p => (c :: p.1, p.2))

/-- Longest digit run at the head of the input. -/
def takeDigits (s : List Char) : List Char × List Char :=
  (s.takeWhile Char.isDigit, s.dropWhile Char.isDigit)

/-- Numeric value of a digit run. -/
def digitsToNat (ds : List Char) : Nat :=
  ds.foldl (fun a c => a * 10 + (c.toNat - 48)) 0

/-- Fraction part of a number, if present: `. digits`. -/
def parseFracOpt : List Char → Option (Option (List Char) × List Char)
  | '.' :: r =>
    match takeDigits r with
    | ([], _) => none
    | (ds, r2) => some (some ds, r2)
  | s => some (none, s)

/-- Exponent part of a number, if present: `(e|E) sign? digits`. -/
def parseExpOpt : List Char → Option (Option Int × List Char)
  | [] => some (none, [])
  | c :: r =>
    if c = 'e' || c = 'E' then
      let signed : Int × List Char :=
        match r with
        | '+' :: r2 => (1, r2)
        | '-' :: r2 => (-1, r2)
        | _ => (1, r)
      match takeDigits signed.2 with
      | ([], _) => none
      | (ds, r2) => some (some (signed.1 * (digitsToNat ds : Int)), r2)
    else some (none, c :: r)

/-- Assemble a numeric literal from its parts, following the stdlib JSON
number grammar: integer → `num`, fraction or exponent present → `fnum`. -/
def numTail (neg : Bool) (ip : Nat) (s : List Char) : Option (Jval × List Char) :=
  match parseFracOpt s with
  | none => none
  | some (fracDigits, s1) =>
    match parseExpOpt s1 with
    | none => none
    | some (expVal, s2) =>
      match fracDigits, expVal with
      | none, none =>
        some (Jval.num (if neg then -(ip : Int) else (ip : Int)), s2)
      | _, _ =>
        let fd := fracDigits.getD []
        let m : Int := (ip * 10 ^ fd.length + digitsToNat fd : Nat)
        let e : Int := expVal.getD 0 - (fd.length : Int)
        some (Jval.fnum (if neg then -m else m) e, s2)

/-- A JSON number: `-? (0 | [1-9][0-9]*) frac? exp?`. -/
def parseNum (s : List Char) : Option (Jval × List Char) :=
  let signed : Bool × List Char :=
    match s with
    | '-' :: r => (true, r)
    | _ => (false, s)
  match signed.2 with
  | [] => none
  | c :: r =>
    if c = '0' then numTail signed.1 0 r
    else if c.isDigit then
      match takeDigits r with
      | (ds, r2) => numTail signed.1 (digitsToNat (c :: ds)) r2
    else none

mutual

/-- A JSON value at the head of the input (no leading whitespace); models
the stdlib scanner including the `NaN`/`Infinity`/`-Infinity` extensions. -/
def parseV : Nat → List Char → Option (Jval × List Char)
  | 0, _ => none
  | f + 1, s =>
    match s with
    | [] => none
    | c :: r =>
      if c = '\x7b' then parseObjBody f (skipWs r)
      else if c = '[' then parseArrBody f (skipWs r)
      else if c = '"' then (parseStrBody r).map (fun p => (Jval.str p.1, p.2))
      else if List.isPrefixOf ('t' :: 'r' :: 'u' :: 'e' :: []) s then
        some (Jval.bool true, s.drop 4)
      else if List.isPrefixOf ('f' :: 'a' :: 'l' :: 's' :: 'e' :: []) s then
        some (Jval.bool false, s.drop 5)
      else if List.isPrefixOf ('n' :: 'u' :: 'l' :: 'l' :: []) s then
        some (Jval.null, s.drop 4)
      else if List.isPrefixOf ('N' :: 'a' :: 'N' :: []) s then
        some (Jval.nan, s.drop 3)
      else if List.isPrefixOf ('I' :: 'n' :: 'f' :: 'i' :: 'n' :: 'i' :: 't' :: 'y' :: []) s then
        some (Jval.inf false, s.drop 8)
      else if List.isPrefixOf
          ('-' :: 'I' :: 'n' :: 'f' :: 'i' :: 'n' :: 'i' :: 't' :: 'y' :: []) s then
        some (Jval.inf true, s.drop 9)
      else parseNum s

/-- Object body after `{` (whitespace already skipped). -/
def parseObjBody : Nat → List Char → Option (Jval × List Char)
  | 0, _ => none
  | f + 1, s =>
    match s with
    | '\x7d' :: r => some (Jval.obj [], r)
    | _ => parseMembers f s []

/-- One or more `"key": value` members, separated by commas. -/
def parseMembers : Nat → List Char → List (List Char × Jval) → Option (Jval × List Char)
  | 0, _, _ => none
  | f + 1, s, acc =>
    match s with
    | '"' :: r =>
      match parseStrBody r with
      | none => none
      | some (k, r1) =>
        match skipWs r1 with
        | ':' :: r2 =>
          match parseV f (skipWs r2) with
          | none => none
          | some (v, r3) =>
            match skipWs r3 with
            | ',' :: r4 => parseMembers f (skipWs r4) (objInsert k v acc)
            | '\x7d' :: r4 => some (Jval.obj (objInsert k v acc), r4)
            | _ => none
        | _ => none
    | _ => none

/-- Array body after `[` (whitespace already skipped). -/
def parseArrBody : Nat → List Char → Option (Jval × List Char)
  | 0, _ => none
  | f + 1, s =>
    match s with
    | ']' :: r => some (Jval.arr [], r)
    | _ => parseElems f s []

/-- One or more array elements, separated by commas. -/
def parseElems : Nat → List Char → List Jval → Option (Jval × List Char)
  | 0, _, _ => none
  | f + 1, s, acc =>
    match parseV f s with
    | none => none
    | some (v, r) =>
      match skipWs r with
      | ',' :: r2 => parseElems f (skipWs r2) (acc ++ [v])
      | ']' :: r2 => some (Jval.arr (acc ++ [v]), r2)
      | _ => none

end

/-- Python `json.loads`: strict decode of the whole input, surrounding
whitespace allowed, trailing data rejected. -/
def jsonLoads (s : List Char) : Option Jval :=
  match parseV (4 * s.length + 4) (skipWs s) with
  | some (v, rest) => if skipWs rest = [] then some v else none
  | none => none

/-- Index of the first occurrence of `c`, if any. -/
def firstIdx (c : Char) : List Char → Option Nat
  | [] => none
  | a :: r => if a = c then some 0 else (firstIdx c r).map (· + 1)

/-- Index of the last occurrence of `c`, if any. -/
def lastIdx (c : Char) : List Char → Option Nat
  | [] => none
  | a :: r =>
    match lastIdx c r with
    | some j => some (j + 1)
    | none => if a = c then some 0 else none

/-- The search performed by the source's `re.search` of the pattern
matching an opening brace, any characters, a closing brace: try each start
position left to right; at an opening brace the greedy star runs to the end
and backtracks to the last closing brace, if one follows. -/
def reSearchBraceAny : List Char → Option (List Char)
  | [] => none
  | c :: r =>
    if c = '\x7b' then
      match lastIdx '\x7d' r with
      | some j => some ('\x7b' :: r.take (j + 1))
      | none => reSearchBraceAny r
    else reSearchBraceAny r

/-- The fenced-code opening marker tagged json. -/
def fenceJsonPat : List Char := "```json".data

/-- The bare fence marker. -/
def fencePat : List Char := "```".data

/-- `GeminiClient._extract_json`: strip, delete the fence markers, strip
again, then return the regex match (stripped) if any, else the text. -/
def extractJson (text : List Char) : List Char :=
  let t1 := pyStrip text
  let t2 := replaceList fenceJsonPat [] t1
  let t3 := pyStrip (replaceList fencePat [] t2)
  match reSearchBraceAny t3 with
  | some m => pyStrip m
  | none => t3

/-- The greedy span from the first opening brace to the last closing
brace, provided an opening brace occurs before a closing one. -/
def greedySpanOpt (t : List Char) : Option (List Char) :=
  match firstIdx '\x7b' t, lastIdx '\x7d' t with
  | some i, some j => if i < j then some ((t.drop i).take (j - i + 1)) else none
  | _, _ => none

/-- The JSON Locator as the claim states it: trim whitespace; delete every
occurrence of the json-tagged fence marker and then of the bare fence
marker anywhere in the text; re-trim; if the result contains an opening
brace followed (possibly much later) by a closing brace, return the greedy
span from the first opening to the last closing brace; otherwise return
the trimmed fence-stripped text unchanged. -/
def extractJsonSpec (text : List Char) : List Char :=
  let t1 := pyStrip text
  let t2 := replaceList fenceJsonPat [] t1
  let t3 := pyStrip (replaceList fencePat [] t2)
  match greedySpanOpt t3 with
  | some m => m
  | none => t3

/-- The two classified failure kinds of the Outcome Classifier. -/
inductive ErrKind where
  | upstream : ErrKind
  | unparseable : ErrKind
deriving DecidableEq

/-- The single failure representation crossing the pipeline boundary,
modelling `HTTPException(status_code=..., detail=...)` with the kind
recording which of the two raise sites produced it. -/
structure PipelineError where
  kind : ErrKind
  status : Nat
  detail : List Char

/-- The error raised when both repair heuristics fail. -/
def unparseableOutputError : PipelineError :=
  ⟨ErrKind.unparseable, 502, "Gemini returned invalid JSON (repair failed).".data⟩

/-- The error wrapping an exception from the model transport. -/
def upstreamError (exc : List Char) : PipelineError :=
  ⟨ErrKind.upstream, 502, "Gemini Vision API Error: ".data ++ exc⟩

/-- The single-pass textual replacements of comma-brace by brace and
comma-bracket by bracket used by the second repair heuristic. -/
def trailingCommaClean (text : List Char) : List Char :=
  replaceList (',' :: ']' :: []) (']' :: []) (replaceList (',' :: '\x7d' :: []) ('\x7d' :: []) text)

/-- `GeminiClient._attempt_repair`: if the opening-brace count exceeds the
closing-brace count by exactly one, append a closing brace and try to
decode; then (whether or not the first heuristic ran or failed) strip
trailing commas from the original text and try to decode; else raise the
502 repair-failed error. -/
def attemptRepair (text : List Char) : Except PipelineError Jval :=
  match (if text.count '\x7b' = text.count '\x7d' + 1
         then jsonLoads (text ++ ('\x7d' :: [])) else none) with
  | some v => Except.ok v
  | none =>
    match jsonLoads (trailingCommaClean text) with
    | some v => Except.ok v
    | none => Except.error unparseableOutputError

/-- The Repair Engine as the claim states it: exactly two heuristics in
order, each accepted only if a full re-decode succeeds; the first appends
one closing brace if and only if the opening braces outnumber the closing
ones by exactly one; the second applies the single-pass trailing-comma
replacements to the original candidate, even if the first was tried and
failed; no other transformation. -/
def repairEngineSpec (text : List Char) : Except PipelineError Jval :=
  let heuristic1 : Option Jval :=
    if text.count '\x7b' = text.count '\x7d' + 1
    then jsonLoads (text ++ ('\x7d' :: [])) else none
  let heuristic2 : Option Jval := jsonLoads (trailingCommaClean text)
  match heuristic1.orElse (fun _ => heuristic2) with
  | some v => Except.ok v
  | none => Except.error unparseableOutputError

/-- `analyze_image_with_prompt` from the model response on: a transport
exception is wrapped into the upstream 502 error; otherwise the response
text goes through the Locator, one strict decode, and on decode failure
the Repair Engine (whose 502 error is re-raised unchanged). -/
def analyzeImage (resp : Except (List Char) (List Char)) : Except PipelineError Jval :=
  match resp with
  | Except.error exc => Except.error (upstreamError exc)
  | Except.ok rawText =>
    let cleaned := extractJson rawText
    match jsonLoads cleaned with
    | some v => Except.ok v
    | none => attemptRepair cleaned

/-- The request sent to the model. -/
structure AnalysisRequest where
  image_bytes : List Nat
  prompt : List Char
  mime_type : List Char

/-- The default of the `mime_type` parameter of
`analyze_image_with_prompt`. -/
def defaultMimeType : List Char := "image/jpeg".data

/-- The request built by `analyze_image_with_prompt`: an omitted
`mime_type` argument falls back to the declared default. -/
def requestOf (image_bytes : List Nat) (prompt : List Char)
    (mime_type : Option (List Char)) : AnalysisRequest :=
  ⟨image_bytes, prompt, mime_type.getD defaultMimeType⟩

/-- The full public operation: build the request, invoke the model (an
arbitrary function to either a transport exception or a response text),
then run the recovery pipeline. -/
def analyzeImageWithPrompt (model : AnalysisRequest → Except (List Char) (List Char))
    (image_bytes : List Nat) (prompt : List Char)
    (mime_type : Option (List Char)) : Except PipelineError Jval :=
  analyzeImage (model (requestOf image_bytes prompt mime_type))

/-- Whether a decoded JSON value is an object, i.e. a string-keyed
mapping. -/
def isObjVal : Jval → Bool
  | Jval.obj _ => true
  | _ => false

/-! ### Sample inputs used by the concrete claims -/

/-- The truncated object of the repair round-trip example. -/
def truncatedSample : List Char := "\x7b\"a\": 1, \"b\": 2".data

/-- The value the repaired round-trip example decodes to. -/
def truncatedSampleVal : Jval :=
  Jval.obj ((('a' :: []), Jval.num 1) :: (('b' :: []), Jval.num 2) :: [])

/-- The trailing-comma example exactly as the claim spells it, stray
non-JSON letters included. -/
def atchSample : List Char := "\x7b\"a\": 1, \"b\": [1, 2,]atch,\x7d".data

/-- The trailing-comma example without the stray letters. -/
def commaSample : List Char := "\x7b\"a\": 1, \"b\": [1, 2,],\x7d".data

/-- The value the comma-cleaned example decodes to. -/
def commaSampleVal : Jval :=
  Jval.obj ((('a' :: []), Jval.num 1) ::
    (('b' :: []), Jval.arr (Jval.num 1 :: Jval.num 2 :: [])) :: [])

/-- A candidate whose string literal contains a comma-brace sequence. -/
def embeddedCommaSample : List Char := "\x7b\"a\": \"x,\x7d\",\x7d".data

/-- A response text with no opening brace that is nevertheless valid
JSON (an array). -/
def arraySample : List Char := "[1, 2]".data

/-- A response text with no opening brace and no JSON reading at all. -/
def noBraceSample : List Char := "I cannot analyze this image.".data

/-- A well-formed object followed by prose that contains a stray closing
brace. -/
def innerObjSample : List Char := "\x7b\"a\": 1\x7d".data

/-- The prose wrapping of `innerObjSample` with a stray closing brace. -/
def proseBraceSample : List Char := innerObjSample ++ " and also \x7d".data

/-! ### Helper lemmas -/

/-- Characters of a replacement by the empty string come from the input. -/
theorem mem_replaceList_nil (pat : List Char) (a : Char) :
    ∀ n : Nat, ∀ l : List Char, l.length ≤ n → a ∈ replaceList pat [] l → a ∈ l := by
  intro n
  induction n with
  | zero =>
    intro l h1 h2
    have : l = [] := List.eq_nil_of_length_eq_zero (Nat.le_zero.mp h1)
    subst this
    exact h2
  | succ n ih =>
    intro l h1 h2
    cases l with
    | nil => exact h2
    | cons c rest =>
      rw [replaceList_cons] at h2
      by_cases hp : pat ≠ [] ∧ List.isPrefixOf pat (c :: rest)
      · rw [if_pos hp, List.nil_append] at h2
        have hple : 0 < pat.length := List.length_pos.mpr hp.1
        have hlen : (List.drop pat.length (c :: rest)).length ≤ n := by
          simp only [List.length_drop, List.length_cons]
          simp only [List.length_cons] at h1
          omega
        exact List.drop_subset _ _ (ih _ hlen h2)
      · rw [if_neg hp] at h2
        rcases List.mem_cons.mp h2 with h | h
        · exact List.mem_cons.mpr (Or.inl h)
        · have hlen : rest.length ≤ n := by
            simp only [List.length_cons] at h1; omega
          exact List.mem_cons.mpr (Or.inr (ih _ hlen h))

/-- Characters of the stripped text come from the input. -/
theorem mem_pyStrip {a : Char} {l : List Char} (h : a ∈ pyStrip l) : a ∈ l := by
  unfold pyStrip at h
  rw [List.mem_reverse] at h
  have h2 := (List.dropWhile_suffix _).sublist.subset h
  rw [List.mem_reverse] at h2
  exact (List.dropWhile_suffix _).sublist.subset h2

/-- Characters of the regex match come from the searched text. -/
theorem mem_reSearchBraceAny {a : Char} :
    ∀ t m : List Char, reSearchBraceAny t = some m → a ∈ m → a ∈ t := by
  intro t
  induction t with
  | nil => intro m h; exact absurd h (by simp [reSearchBraceAny])
  | cons c r ih =>
    intro m h ha
    by_cases hc : c = '\x7b'
    · rw [show reSearchBraceAny (c :: r) =
          (if c = '\x7b' then
            match lastIdx '\x7d' r with
            | some j => some ('\x7b' :: r.take (j + 1))
            | none => reSearchBraceAny r
          else reSearchBraceAny r) from rfl, if_pos hc] at h
      cases hj : lastIdx '\x7d' r with
      | some j =>
        rw [hj] at h
        cases h
        rcases List.mem_cons.mp ha with h1 | h1
        · exact List.mem_cons.mpr (Or.inl (h1.trans hc.symm))
        · exact List.mem_cons.mpr (Or.inr (List.take_subset _ _ h1))
      | none =>
        rw [hj] at h
        exact List.mem_cons.mpr (Or.inr (ih m h ha))
    · rw [show reSearchBraceAny (c :: r) =
          (if c = '\x7b' then
            match lastIdx '\x7d' r with
            | some j => some ('\x7b' :: r.take (j + 1))
            | none => reSearchBraceAny r
          else reSearchBraceAny r) from rfl, if_neg hc] at h
      exact List.mem_cons.mpr (Or.inr (ih m h ha))

/-- Characters of the Locator output come from the response text. -/
theorem mem_extractJson {a : Char} {t : List Char} (h : a ∈ extractJson t) : a ∈ t := by
  have hmain : ∀ u : List Char,
      a ∈ (match reSearchBraceAny u with
           | some m => pyStrip m
           | none => u) → a ∈ u := by
    intro u hu
    cases hm : reSearchBraceAny u with
    | some m =>
      rw [hm] at hu
      exact mem_reSearchBraceAny _ _ hm (mem_pyStrip hu)
    | none =>
      rw [hm] at hu
      exact hu
  replace h : a ∈ (match reSearchBraceAny
      (pyStrip (replaceList fencePat [] (replaceList fenceJsonPat [] (pyStrip t)))) with
      | some m => pyStrip m
      | none =>
        pyStrip (replaceList fencePat [] (replaceList fenceJsonPat [] (pyStrip t)))) := h
  have h2 := hmain _ h
  exact mem_pyStrip (mem_replaceList_nil fenceJsonPat a _ _ (Nat.le_refl _)
    (mem_replaceList_nil fencePat a _ _ (Nat.le_refl _) (mem_pyStrip h2)))

/-- The first-index search is sound. -/
theorem firstIdx_spec (c : Char) :
    ∀ t : List Char, ∀ i : Nat, firstIdx c t = some i → t[i]? = some c := by
  intro t
  induction t with
  | nil => intro i h; exact absurd h (by simp [firstIdx])
  | cons a r ih =>
    intro i h
    unfold firstIdx at h
    by_cases ha : a = c
    · rw [if_pos ha] at h
      cases h
      rw [List.getElem?_cons_zero, ha]
    · rw [if_neg ha] at h
      rcases Option.map_eq_some'.mp h with ⟨i0, hi0, hadd⟩
      subst hadd
      rw [List.getElem?_cons_succ]
      exact ih i0 hi0

/-- The last-index search is sound. -/
theorem lastIdx_spec (c : Char) :
    ∀ t : List Char, ∀ j : Nat, lastIdx c t = some j → t[j]? = some c := by
  intro t
  induction t with
  | nil => intro j h; exact absurd h (by simp [lastIdx])
  | cons a r ih =>
    intro j h
    unfold lastIdx at h
    cases hlr : lastIdx c r with
    | some j0 =>
      rw [hlr] at h
      cases h
      rw [List.getElem?_cons_succ]
      exact ih j0 hlr
    | none =>
      rw [hlr] at h
      by_cases ha : a = c
      · rw [if_pos ha] at h
        cases h
        rw [List.getElem?_cons_zero, ha]
      · rw [if_neg ha] at h
        exact absurd h (by simp)

/-- A character has no last index exactly when it does not occur. -/
theorem lastIdx_eq_none (c : Char) :
    ∀ t : List Char, lastIdx c t = none ↔ c ∉ t := by
  intro t
  induction t with
  | nil => simp [lastIdx]
  | cons a r ih =>
    unfold lastIdx
    cases hlr : lastIdx c r with
    | some j =>
      simp only [List.mem_cons]
      constructor
      · intro h; exact absurd h (by simp)
      · intro h
        have : c ∈ r := by
          have := lastIdx_spec c r j hlr
          rcases List.getElem?_eq_some.mp this with ⟨hlt, hget⟩
          exact hget ▸ List.getElem_mem hlt
        exact absurd (Or.inr this) h
    | none =>
      by_cases ha : a = c
      · rw [if_pos ha]
        simp [ha]
      · rw [if_neg ha]
        simp only [List.mem_cons]
        constructor
        · intro _ hmem
          rcases hmem with h | h
          · exact ha h.symm
          · exact (ih.mp hlr) h
        · intro _
          trivial

/-- A character has no first index exactly when it does not occur. -/
theorem firstIdx_eq_none (c : Char) :
    ∀ t : List Char, firstIdx c t = none ↔ c ∉ t := by
  intro t
  induction t with
  | nil => simp [firstIdx]
  | cons a r ih =>
    unfold firstIdx
    by_cases ha : a = c
    · rw [if_pos ha]
      simp [ha]
    · rw [if_neg ha]
      simp only [List.mem_cons, Option.map_eq_none', ih]
      constructor
      · intro h hmem
        rcases hmem with h1 | h1
        · exact ha h1.symm
        · exact h h1
      · intro h h1
        exact h (Or.inr h1)

/-- First index over an append. -/
theorem firstIdx_append (c : Char) (x y : List Char) :
    firstIdx c (x ++ y) =
      match firstIdx c x with
      | some i => some i
      | none => (firstIdx c y).map (· + x.length) := by
  induction x with
  | nil => cases hy : firstIdx c y <;> simp [firstIdx, hy]
  | cons a r ih =>
    have hcons : ∀ z : List Char,
        firstIdx c (a :: z) = if a = c then some 0 else (firstIdx c z).map (· + 1) :=
      fun _ => rfl
    rw [List.cons_append]
    simp only [hcons]
    rw [ih]
    by_cases ha : a = c
    · rw [if_pos ha, if_pos ha]
    · rw [if_neg ha, if_neg ha]
      cases hx : firstIdx c r with
      | some i => rfl
      | none =>
        cases hy : firstIdx c y with
        | some k =>
          show some (k + r.length + 1) = some (k + (r.length + 1))
          rw [Nat.add_assoc]
        | none => rfl

/-- Last index over an append. -/
theorem lastIdx_append (c : Char) (x y : List Char) :
    lastIdx c (x ++ y) =
      match lastIdx c y with
      | some j => some (x.length + j)
      | none => lastIdx c x := by
  induction x with
  | nil => cases hy : lastIdx c y <;> simp [lastIdx, hy]
  | cons a r ih =>
    have hcons : ∀ z : List Char,
        lastIdx c (a :: z) =
          match lastIdx c z with
          | some j => some (j + 1)
          | none => if a = c then some 0 else none :=
      fun _ => rfl
    rw [List.cons_append]
    simp only [hcons]
    rw [ih]
    cases hy : lastIdx c y with
    | some j =>
      show some (r.length + j + 1) = some (r.length + 1 + j)
      simp only [Option.some.injEq]
      omega
    | none => rfl

/-- The leftmost-greedy regex search coincides with the first-open-brace to
last-close-brace span description. -/
theorem reSearch_eq_greedySpan : ∀ t : List Char, reSearchBraceAny t = greedySpanOpt t := by
  intro t
  induction t with
  | nil => rfl
  | cons c r ih =>
    have hre : reSearchBraceAny (c :: r) =
        (if c = '\x7b' then
          match lastIdx '\x7d' r with
          | some j => some ('\x7b' :: r.take (j + 1))
          | none => reSearchBraceAny r
        else reSearchBraceAny r) := rfl
    have hfi : ∀ z : List Char,
        firstIdx '\x7b' (c :: z) = if c = '\x7b' then some 0 else (firstIdx '\x7b' z).map (· + 1) :=
      fun _ => rfl
    have hli : ∀ z : List Char,
        lastIdx '\x7d' (c :: z) =
          match lastIdx '\x7d' z with
          | some j => some (j + 1)
          | none => if c = '\x7d' then some 0 else none :=
      fun _ => rfl
    rw [hre]
    unfold greedySpanOpt
    rw [hfi, hli]
    by_cases hc : c = '\x7b'
    · rw [if_pos hc, if_pos hc]
      cases hj : lastIdx '\x7d' r with
      | some j =>
        show some ('\x7b' :: r.take (j + 1)) =
          (if 0 < j + 1 then some (((c :: r).drop 0).take (j + 1 - 0 + 1)) else none)
        rw [if_pos (Nat.succ_pos j), List.drop_zero, Nat.sub_zero, List.take_succ_cons, hc]
      | none =>
        have hnone : (if c = '\x7d' then some 0 else none) = (none : Option Nat) := by
          rw [if_neg (by rw [hc]; decide)]
        rw [hnone]
        rw [ih]
        unfold greedySpanOpt
        rw [hj]
        cases hfir : firstIdx '\x7b' r <;> rfl
    · rw [if_neg hc, if_neg hc, ih]
      unfold greedySpanOpt
      cases hfir : firstIdx '\x7b' r with
      | none =>
        cases hj : lastIdx '\x7d' r with
        | some j => rfl
        | none => cases hcd : (if c = '\x7d' then some 0 else (none : Option Nat)) <;> rfl
      | some i =>
        cases hj : lastIdx '\x7d' r with
        | some j =>
          show (if i < j then some ((r.drop i).take (j - i + 1)) else none) =
            (if i + 1 < j + 1 then some (((c :: r).drop (i + 1)).take (j + 1 - (i + 1) + 1)) else none)
          rw [List.drop_succ_cons, Nat.succ_sub_succ]
          by_cases hij : i < j
          · rw [if_pos hij, if_pos (Nat.succ_lt_succ hij)]
          · rw [if_neg hij, if_neg (fun hlt => hij (Nat.lt_of_succ_lt_succ hlt))]
        | none =>
          by_cases hc2 : c = '\x7d'
          · rw [if_pos hc2]
            show (none : Option (List Char)) =
              (if i + 1 < 0 then some (((c :: r).drop (i + 1)).take (0 - (i + 1) + 1)) else none)
            rw [if_neg (Nat.not_lt_zero _)]
          · rw [if_neg hc2]
            rfl

/-- Stripping fixes a list whose first and last characters are not
whitespace. -/
theorem pyStrip_eq_self {m : List Char} {a b : Char} (ha : m.head? = some a)
    (hpa : isPySpace a = false) (hb : m.getLast? = some b) (hpb : isPySpace b = false) :
    pyStrip m = m := by
  unfold pyStrip
  have h1 : m.dropWhile isPySpace = m := by
    cases m with
    | nil => rfl
    | cons c r =>
      rw [List.head?_cons, Option.some.injEq] at ha
      rw [List.dropWhile_cons, ha, hpa]
      simp
  rw [h1]
  have h2 : m.reverse.dropWhile isPySpace = m.reverse := by
    have hrb : m.reverse.head? = some b := by rw [List.head?_reverse]; exact hb
    cases hmr : m.reverse with
    | nil => rfl
    | cons c r =>
      rw [hmr, List.head?_cons, Option.some.injEq] at hrb
      rw [List.dropWhile_cons, hrb, hpb]
      simp
  rw [h2, List.reverse_reverse]

/-- A successful greedy span starts with an opening brace and ends with a
closing brace. -/
theorem greedySpanOpt_head_last {t m : List Char} (h : greedySpanOpt t = some m) :
    m.head? = some '\x7b' ∧ m.getLast? = some '\x7d' := by
  unfold greedySpanOpt at h
  cases hfi : firstIdx '\x7b' t with
  | none => rw [hfi] at h; exact absurd h (by simp)
  | some i =>
    cases hli : lastIdx '\x7d' t with
    | none => rw [hfi, hli] at h; exact absurd h (by simp)
    | some j =>
      rw [hfi, hli] at h
      replace h : (if i < j then some ((t.drop i).take (j - i + 1)) else none) = some m := h
      by_cases hij : i < j
      · rw [if_pos hij, Option.some.injEq] at h
        subst h
        have hi := firstIdx_spec '\x7b' t i hfi
        have hj := lastIdx_spec '\x7d' t j hli
        have hjlen : j < t.length := (List.getElem?_eq_some.mp hj).1
        have hilen : i < t.length := (List.getElem?_eq_some.mp hi).1
        constructor
        · rw [List.head?_eq_getElem?, List.getElem?_take, if_pos (Nat.succ_pos _),
            List.getElem?_drop, Nat.add_zero]
          exact hi
        · have hlen : ((t.drop i).take (j - i + 1)).length = j - i + 1 := by
            rw [List.length_take, List.length_drop]
            exact Nat.min_eq_left (by omega)
          rw [List.getLast?_eq_getElem?, hlen, Nat.add_sub_cancel, List.getElem?_take,
            if_pos (Nat.lt_succ_self _), List.getElem?_drop]
          rw [show i + (j - i) = j by omega]
          exact hj
      · rw [if_neg hij] at h
        exact absurd h (by simp)

/-- The post-processing step of the Locator agrees with the claim's
description of it: the stripped regex match is the plain greedy span. -/
theorem locator_match_eq_span (u : List Char) :
    (match reSearchBraceAny u with
     | some m => pyStrip m
     | none => u) =
    (match greedySpanOpt u with
     | some m => m
     | none => u) := by
  rw [reSearch_eq_greedySpan]
  cases hg : greedySpanOpt u with
  | none => rfl
  | some m =>
    obtain ⟨hh, hl⟩ := greedySpanOpt_head_last hg
    exact pyStrip_eq_self hh (by decide) hl (by decide)

/-- A replacement whose pattern starts with a character absent from `m`
leaves an `m` prefix untouched. -/
theorem replaceList_nil_append_right (pat : List Char) (c0 : Char) (pr : List Char)
    (hpat : pat = c0 :: pr) :
    ∀ m s : List Char, c0 ∉ m →
      replaceList pat [] (m ++ s) = m ++ replaceList pat [] s := by
  intro m
  induction m with
  | nil => intro s _; rfl
  | cons c m0 ih =>
    intro s hm
    rw [List.cons_append, replaceList_cons]
    have hnp : ¬ (pat ≠ [] ∧ List.isPrefixOf pat (c :: (m0 ++ s))) := by
      rintro ⟨-, hpre⟩
      rcases List.isPrefixOf_iff_prefix.mp hpre with ⟨tl, htl⟩
      rw [hpat, List.cons_append] at htl
      have hc : c0 = c := (List.cons.injEq _ _ _ _).mp htl |>.1
      exact hm (List.mem_cons.mpr (Or.inl hc))
    rw [if_neg hnp, ih s (fun hx => hm (List.mem_cons.mpr (Or.inr hx)))]
    rfl

/-- A replacement by the empty string distributes over a text of the form
prose, object, prose when the pattern starts with a character absent from
the object, the pattern contains no opening brace, and the object starts
with one: no occurrence of the pattern can touch the object. -/
theorem replaceList_nil_sandwich (pat : List Char) (c0 : Char) (pr : List Char)
    (hpat : pat = c0 :: pr) (hbrace : '\x7b' ∉ pat)
    (o : List Char) (ho : o.head? = some '\x7b') (hbo : c0 ∉ o) :
    ∀ n : Nat, ∀ p : List Char, p.length ≤ n → ∀ s : List Char,
      replaceList pat [] (p ++ (o ++ s)) =
        replaceList pat [] p ++ (o ++ replaceList pat [] s) := by
  intro n
  induction n with
  | zero =>
    intro p hlen s
    have : p = [] := List.eq_nil_of_length_eq_zero (Nat.le_zero.mp hlen)
    subst this
    rw [List.nil_append]
    exact replaceList_nil_append_right pat c0 pr hpat o s hbo
  | succ n ih =>
    intro p hlen s
    cases p with
    | nil =>
      rw [List.nil_append]
      exact replaceList_nil_append_right pat c0 pr hpat o s hbo
    | cons c p0 =>
      have hone : o ≠ [] := by
        cases o with
        | nil => exact absurd ho (by simp)
        | cons _ _ => simp
      by_cases hcond : pat ≠ [] ∧ List.isPrefixOf pat (c :: (p0 ++ (o ++ s)))
      · have hple : pat.length ≤ (c :: p0).length := by
          by_contra hgt
          push_neg at hgt
          rcases List.isPrefixOf_iff_prefix.mp hcond.2 with ⟨tl, htl⟩
          have hk : ((c :: p0) ++ (o ++ s))[(c :: p0).length]? = some '\x7b' := by
            rw [List.getElem?_append_right (Nat.le_refl _), Nat.sub_self]
            rw [List.getElem?_append_left (List.length_pos.mpr hone)]
            rw [← List.head?_eq_getElem?]
            exact ho
          rw [List.cons_append, ← htl] at hk
          rw [List.getElem?_append_left hgt] at hk
          rcases List.getElem?_eq_some.mp hk with ⟨hlt, hget⟩
          exact hbrace (hget ▸ List.getElem_mem hlt)
        have hpre2 : List.isPrefixOf pat (c :: p0) := by
          rcases List.isPrefixOf_iff_prefix.mp hcond.2 with ⟨tl, htl⟩
          apply List.isPrefixOf_iff_prefix.mpr
          rw [List.prefix_iff_eq_take]
          have h4 : List.take pat.length (c :: (p0 ++ (o ++ s))) =
              List.take pat.length (c :: p0) := by
            rw [show c :: (p0 ++ (o ++ s)) = (c :: p0) ++ (o ++ s) from rfl]
            exact List.take_append_of_le_length hple
          rw [← h4, ← htl, List.take_left]
        have hlen2 : (List.drop pat.length (c :: p0)).length ≤ n := by
          have h1 : 0 < pat.length := by rw [hpat]; simp
          simp only [List.length_drop, List.length_cons]
          simp only [List.length_cons] at hlen
          omega
        rw [List.cons_append, replaceList_cons, if_pos hcond,
          replaceList_cons, if_pos ⟨hcond.1, hpre2⟩]
        rw [show List.drop pat.length (c :: (p0 ++ (o ++ s))) =
            List.drop pat.length (c :: p0) ++ (o ++ s) from by
          rw [← List.cons_append]
          exact List.drop_append_of_le_length hple]
        rw [ih _ hlen2 s]
        simp [List.append_assoc]
      · have hcond2 : ¬ (pat ≠ [] ∧ List.isPrefixOf pat (c :: p0)) := by
          rintro ⟨h1, h2⟩
          refine hcond ⟨h1, List.isPrefixOf_iff_prefix.mpr ?_⟩
          have h3 : pat <+: ((c :: p0) ++ (o ++ s)) :=
            (List.isPrefixOf_iff_prefix.mp h2).trans (List.prefix_append _ _)
          rwa [List.cons_append] at h3
        have hlen2 : p0.length ≤ n := by
          simp only [List.length_cons] at hlen
          omega
        rw [List.cons_append, replaceList_cons, if_neg hcond,
          replaceList_cons, if_neg hcond2]
        rw [ih _ hlen2 s]
        simp

/-- Dropping a prefix predicate over prose, then a non-matching nonempty
middle part, stops inside the prose. -/
theorem dropWhile_sandwich (P : Char → Bool) (p m s : List Char)
    (hm : m.dropWhile P = m) (hne : m ≠ []) :
    (p ++ (m ++ s)).dropWhile P = p.dropWhile P ++ (m ++ s) := by
  rw [List.dropWhile_append]
  by_cases hp : (p.dropWhile P).isEmpty
  · rw [if_pos hp]
    have hpe : p.dropWhile P = [] := by
      cases hdp : p.dropWhile P with
      | nil => rfl
      | cons a r => rw [hdp] at hp; exact absurd hp (by simp)
    rw [hpe, List.nil_append, List.dropWhile_append, hm]
    rw [if_neg (by simpa using hne)]
  · rw [if_neg hp]

/-- Stripping a text of the form prose, braced object, prose only strips
the outer prose ends. -/
theorem pyStrip_sandwich (p s omid : List Char) :
    pyStrip (p ++ (('\x7b' :: (omid ++ ('\x7d' :: []))) ++ s)) =
      p.dropWhile isPySpace ++
        (('\x7b' :: (omid ++ ('\x7d' :: []))) ++ (s.reverse.dropWhile isPySpace).reverse) := by
  set o := '\x7b' :: (omid ++ ('\x7d' :: [])) with ho
  have hone : o ≠ [] := by rw [ho]; simp
  have hod : o.dropWhile isPySpace = o := by
    rw [ho, List.dropWhile_cons]
    simp [isPySpace]
  have hor : o.reverse = '\x7d' :: (omid.reverse ++ ('\x7b' :: [])) := by
    rw [ho]
    simp
  have horne : o.reverse ≠ [] := by rw [hor]; simp
  have hord : o.reverse.dropWhile isPySpace = o.reverse := by
    rw [hor, List.dropWhile_cons]
    simp [isPySpace]
  unfold pyStrip
  rw [dropWhile_sandwich isPySpace p o s hod hone]
  rw [List.reverse_append, List.reverse_append, List.append_assoc]
  rw [dropWhile_sandwich isPySpace s.reverse o.reverse (p.dropWhile isPySpace).reverse
    hord horne]
  rw [List.reverse_append, List.reverse_append, List.reverse_reverse, List.reverse_reverse]
  rw [List.append_assoc]

/-- The greedy span of prose, braced object, prose is exactly the object
when the left prose has no opening brace and the right prose has no
closing brace. -/
theorem greedySpan_sandwich (p3 omid s3 : List Char)
    (hp : '\x7b' ∉ p3) (hs : '\x7d' ∉ s3) :
    greedySpanOpt (p3 ++ (('\x7b' :: (omid ++ ('\x7d' :: []))) ++ s3)) =
      some ('\x7b' :: (omid ++ ('\x7d' :: []))) := by
  set o := '\x7b' :: (omid ++ ('\x7d' :: [])) with ho
  have hfi : firstIdx '\x7b' (p3 ++ (o ++ s3)) = some p3.length := by
    have h0 : firstIdx '\x7b' (o ++ s3) = some 0 := by
      rw [ho, List.cons_append]
      simp [firstIdx]
    rw [firstIdx_append, (firstIdx_eq_none '\x7b' p3).mpr hp, h0]
    simp
  have hli : lastIdx '\x7d' (p3 ++ (o ++ s3)) = some (p3.length + (omid.length + 1)) := by
    have hs0 : lastIdx '\x7d' s3 = none := (lastIdx_eq_none _ _).mpr hs
    have ho1 : lastIdx '\x7d' o = some (omid.length + 1) := by
      rw [ho, show '\x7b' :: (omid ++ ('\x7d' :: [])) = ('\x7b' :: omid) ++ ('\x7d' :: []) from rfl]
      rw [lastIdx_append]
      rw [show lastIdx '\x7d' ('\x7d' :: []) = some 0 from by simp [lastIdx]]
      simp
    have ho2 : lastIdx '\x7d' (o ++ s3) = some (omid.length + 1) := by
      rw [lastIdx_append, hs0, ho1]
    rw [lastIdx_append, ho2]
  unfold greedySpanOpt
  rw [hfi, hli]
  show (if p3.length < p3.length + (omid.length + 1) then
    some (((p3 ++ (o ++ s3)).drop p3.length).take
      (p3.length + (omid.length + 1) - p3.length + 1)) else none) = some o
  rw [if_pos (by omega), List.drop_left]
  rw [show p3.length + (omid.length + 1) - p3.length + 1 = omid.length + 2 from by omega]
  have holen : o.length = omid.length + 2 := by rw [ho]; simp
  rw [← holen, List.take_left]

/-- Characters of the right-strip come from the input. -/
theorem mem_rstrip {a : Char} {x : List Char}
    (h : a ∈ (x.reverse.dropWhile isPySpace).reverse) : a ∈ x := by
  rw [List.mem_reverse] at h
  have h2 := (List.dropWhile_suffix _).sublist.subset h
  rwa [List.mem_reverse] at h2

/-! ### Claim theorems on concrete inputs -/

/-- C1 amended: for every response text consisting of a well-formed JSON
object (brace-delimited, containing no backtick) preceded by prose with no
opening brace — fence markers included — and followed by prose with no
closing brace, the Locator returns a substring that decodes successfully,
namely the object itself.  (As stated, over arbitrary prose, the claim
fails: a stray closing brace after the object widens the greedy span, see
the counterexample.) -/
theorem locator_wellformed_object_decodes
    (p omid s : List Char) (v : Jval)
    (hobj : jsonLoads ('\x7b' :: (omid ++ ('\x7d' :: []))) = some v)
    (hp : '\x7b' ∉ p) (hs : '\x7d' ∉ s) (hbt : Char.ofNat 96 ∉ omid) :
    jsonLoads (extractJson (p ++ (('\x7b' :: (omid ++ ('\x7d' :: []))) ++ s))) = some v := by
  set o := '\x7b' :: (omid ++ ('\x7d' :: [])) with ho
  have hohead : o.head? = some '\x7b' := by rw [ho]; rfl
  have holast : o.getLast? = some '\x7d' := by
    rw [ho, show '\x7b' :: (omid ++ ('\x7d' :: [])) = ('\x7b' :: omid) ++ ('\x7d' :: []) from rfl]
    exact List.getLast?_concat _
  have hbo : Char.ofNat 96 ∉ o := by
    rw [ho]
    intro hm
    rcases List.mem_cons.mp hm with h | h
    · exact absurd h (by decide)
    · rcases List.mem_append.mp h with h | h
      · exact hbt h
      · rcases List.mem_cons.mp h with h | h
        · exact absurd h (by decide)
        · exact absurd h (List.not_mem_nil _)
  have h1 : pyStrip (p ++ (o ++ s)) =
      p.dropWhile isPySpace ++ (o ++ (s.reverse.dropWhile isPySpace).reverse) := by
    rw [ho]
    exact pyStrip_sandwich p s omid
  have hp1 : '\x7b' ∉ p.dropWhile isPySpace :=
    fun hm => hp ((List.dropWhile_suffix _).sublist.subset hm)
  have hs1 : '\x7d' ∉ (s.reverse.dropWhile isPySpace).reverse := fun hm => hs (mem_rstrip hm)
  have h2 : replaceList fenceJsonPat [] (p.dropWhile isPySpace ++
      (o ++ (s.reverse.dropWhile isPySpace).reverse)) =
      replaceList fenceJsonPat [] (p.dropWhile isPySpace) ++
        (o ++ replaceList fenceJsonPat [] ((s.reverse.dropWhile isPySpace).reverse)) :=
    replaceList_nil_sandwich fenceJsonPat (Char.ofNat 96) "``json".data
      rfl (by decide) o hohead hbo _ _ (Nat.le_refl _) _
  have hq1 : '\x7b' ∉ replaceList fenceJsonPat [] (p.dropWhile isPySpace) :=
    fun hm => hp1 (mem_replaceList_nil _ _ _ _ (Nat.le_refl _) hm)
  have hr1 : '\x7d' ∉ replaceList fenceJsonPat [] ((s.reverse.dropWhile isPySpace).reverse) :=
    fun hm => hs1 (mem_replaceList_nil _ _ _ _ (Nat.le_refl _) hm)
  have h3 : replaceList fencePat [] (replaceList fenceJsonPat [] (p.dropWhile isPySpace) ++
      (o ++ replaceList fenceJsonPat [] ((s.reverse.dropWhile isPySpace).reverse))) =
      replaceList fencePat [] (replaceList fenceJsonPat [] (p.dropWhile isPySpace)) ++
        (o ++ replaceList fencePat []
          (replaceList fenceJsonPat [] ((s.reverse.dropWhile isPySpace).reverse))) :=
    replaceList_nil_sandwich fencePat (Char.ofNat 96) "``".data
      rfl (by decide) o hohead hbo _ _ (Nat.le_refl _) _
  have hq2 : '\x7b' ∉ replaceList fencePat [] (replaceList fenceJsonPat [] (p.dropWhile isPySpace)) :=
    fun hm => hq1 (mem_replaceList_nil _ _ _ _ (Nat.le_refl _) hm)
  have hr2 : '\x7d' ∉ replaceList fencePat []
      (replaceList fenceJsonPat [] ((s.reverse.dropWhile isPySpace).reverse)) :=
    fun hm => hr1 (mem_replaceList_nil _ _ _ _ (Nat.le_refl _) hm)
  have h4 : pyStrip (replaceList fencePat []
        (replaceList fenceJsonPat [] (p.dropWhile isPySpace)) ++
      (o ++ replaceList fencePat []
        (replaceList fenceJsonPat [] ((s.reverse.dropWhile isPySpace).reverse)))) =
      (replaceList fencePat []
        (replaceList fenceJsonPat [] (p.dropWhile isPySpace))).dropWhile isPySpace ++
      (o ++ ((replaceList fencePat []
        (replaceList fenceJsonPat []
          ((s.reverse.dropWhile isPySpace).reverse))).reverse.dropWhile isPySpace).reverse) := by
    rw [ho]
    exact pyStrip_sandwich _ _ omid
  have hp3 : '\x7b' ∉ (replaceList fencePat []
      (replaceList fenceJsonPat [] (p.dropWhile isPySpace))).dropWhile isPySpace :=
    fun hm => hq2 ((List.dropWhile_suffix _).sublist.subset hm)
  have hs3 : '\x7d' ∉ ((replaceList fencePat []
      (replaceList fenceJsonPat []
        ((s.reverse.dropWhile isPySpace).reverse))).reverse.dropWhile isPySpace).reverse :=
    fun hm => hr2 (mem_rstrip hm)
  have hspan : greedySpanOpt
      ((replaceList fencePat []
        (replaceList fenceJsonPat [] (p.dropWhile isPySpace))).dropWhile isPySpace ++
      (o ++ ((replaceList fencePat []
        (replaceList fenceJsonPat []
          ((s.reverse.dropWhile isPySpace).reverse))).reverse.dropWhile isPySpace).reverse)) =
      some o := by
    rw [ho]
    exact greedySpan_sandwich _ omid _ hp3 hs3
  have hrfl : extractJson (p ++ (o ++ s)) =
      (match reSearchBraceAny (pyStrip (replaceList fencePat []
        (replaceList fenceJsonPat [] (pyStrip (p ++ (o ++ s)))))) with
       | some m => pyStrip m
       | none => pyStrip (replaceList fencePat []
          (replaceList fenceJsonPat [] (pyStrip (p ++ (o ++ s)))))) := rfl
  rw [hrfl, h1, h2, h3, h4, reSearch_eq_greedySpan, hspan]
  show jsonLoads (pyStrip o) = some v
  rw [pyStrip_eq_self hohead (by decide) holast (by decide)]
  exact hobj

/-- C1 amended, witness: a fence-wrapped object with prose, decoded
through the Locator. -/
theorem locator_wellformed_object_decodes_witness :
    jsonLoads ('\x7b' :: ("\"x\": 1".data ++ ('\x7d' :: []))) =
      some (Jval.obj ((('x' :: []), Jval.num 1) :: [])) ∧
    jsonLoads (extractJson ("Sure! ```json\n".data ++
        (('\x7b' :: ("\"x\": 1".data ++ ('\x7d' :: []))) ++ "\n``` hope this helps".data))) =
      some (Jval.obj ((('x' :: []), Jval.num 1) :: [])) :=
  ⟨rfl, locator_wellformed_object_decodes "Sure! ```json\n".data "\"x\": 1".data
    "\n``` hope this helps".data (Jval.obj ((('x' :: []), Jval.num 1) :: []))
    rfl (by decide) (by decide) (by decide)⟩

/-- C5: for the truncated text missing its final closing brace, heuristic 1
fires (the opening braces outnumber the closing ones by one), the text with
one closing brace appended decodes, and both the Repair Engine and the full
pipeline return the intended structure. -/
theorem repair_missing_brace_roundtrip :
    truncatedSample.count '\x7b' = truncatedSample.count '\x7d' + 1 ∧
    jsonLoads (truncatedSample ++ ('\x7d' :: [])) = some truncatedSampleVal ∧
    attemptRepair truncatedSample = Except.ok truncatedSampleVal ∧
    analyzeImage (Except.ok truncatedSample) = Except.ok truncatedSampleVal :=
  ⟨rfl, rfl, rfl, rfl⟩

/-- C2 counterexample: on the claim's literal input (with the stray letters
`atch`), the trailing-comma replacement does not yield decodable text, the
Repair Engine fails, and the pipeline returns the 502 repair-failed error
instead of a structure. -/
theorem repair_trailing_commas_atch_counterexample :
    jsonLoads (trailingCommaClean atchSample) = none ∧
    attemptRepair atchSample = Except.error unparseableOutputError ∧
    analyzeImage (Except.ok atchSample) = Except.error unparseableOutputError :=
  ⟨rfl, rfl, rfl⟩

/-- C2 amended: on the trailing-comma input without the stray letters, the
single-pass replacement produces text that decodes, and the pipeline
returns the structure without the stray commas. -/
theorem repair_trailing_commas_example :
    jsonLoads commaSample = none ∧
    trailingCommaClean commaSample = "\x7b\"a\": 1, \"b\": [1, 2]\x7d".data ∧
    jsonLoads (trailingCommaClean commaSample) = some commaSampleVal ∧
    attemptRepair commaSample = Except.ok commaSampleVal ∧
    analyzeImage (Except.ok commaSample) = Except.ok commaSampleVal :=
  ⟨rfl, rfl, rfl, rfl, rfl⟩

/-- C10: the trailing-comma replacement is purely textual: on a candidate
whose string literal contains a comma-brace sequence, the strict decode
fails, the repair succeeds, and the returned object's string value differs
from the characters written in the candidate's literal. -/
theorem trailing_comma_rewrites_inside_strings :
    jsonLoads embeddedCommaSample = none ∧
    trailingCommaClean embeddedCommaSample = "\x7b\"a\": \"x\x7d\"\x7d".data ∧
    attemptRepair embeddedCommaSample =
      Except.ok (Jval.obj ((('a' :: []), Jval.str ('x' :: '\x7d' :: [])) :: [])) ∧
    ('x' :: '\x7d' :: []) ≠ ('x' :: ',' :: '\x7d' :: []) :=
  ⟨rfl, rfl, rfl, by decide⟩

/-- C6 counterexample: a response text with no opening brace whose trimmed
text is valid JSON (an array) makes the pipeline succeed with a non-object
value instead of terminating with the repair-failed error. -/
theorem no_brace_text_success_counterexample :
    '\x7b' ∉ arraySample ∧
    analyzeImage (Except.ok arraySample) =
      Except.ok (Jval.arr (Jval.num 1 :: Jval.num 2 :: [])) ∧
    (Except.ok (Jval.arr (Jval.num 1 :: Jval.num 2 :: [])) :
      Except PipelineError Jval) ≠ Except.error unparseableOutputError :=
  ⟨by decide, rfl, fun h => nomatch h⟩

/-- C8: on the response text `42` the pipeline succeeds and returns the
bare number 42, which is not a string-keyed mapping — contradicting the
declared `Dict[str, Any]` return type of `analyze_image_with_prompt`. -/
theorem analyze_nonobject_result :
    analyzeImage (Except.ok ('4' :: '2' :: [])) = Except.ok (Jval.num 42) ∧
    isObjVal (Jval.num 42) = false :=
  ⟨rfl, rfl⟩

/-- C7: a transport exception from the model invocation makes the pipeline
terminate immediately with the upstream 502 error whose message includes
the underlying cause; the result is this classified error by construction,
independent of the Locator, Decoder and Repair Engine. -/
theorem transport_error_yields_upstream (exc : List Char) :
    analyzeImage (Except.error exc) = Except.error (upstreamError exc) ∧
    (upstreamError exc).kind = ErrKind.upstream ∧
    (upstreamError exc).status = 502 ∧
    exc <:+ (upstreamError exc).detail :=
  ⟨rfl, rfl, rfl, List.suffix_append _ _⟩

/-- C9: an omitted `mime_type` argument sends the request with the default
`image/jpeg`. -/
theorem default_mime_type_jpeg
    (model : AnalysisRequest → Except (List Char) (List Char))
    (image_bytes : List Nat) (prompt : List Char) :
    (requestOf image_bytes prompt none).mime_type = "image/jpeg".data ∧
    analyzeImageWithPrompt model image_bytes prompt none =
      analyzeImage (model ⟨image_bytes, prompt, "image/jpeg".data⟩) :=
  ⟨rfl, rfl⟩

/-- C1 counterexample: a response text consisting of one well-formed JSON
object followed by prose containing a stray closing brace: the object
itself decodes, but the Locator's greedy span swallows the prose and its
output does not decode. -/
theorem locator_trailing_brace_counterexample :
    jsonLoads innerObjSample = some (Jval.obj ((('a' :: []), Jval.num 1) :: [])) ∧
    extractJson proseBraceSample = proseBraceSample ∧
    jsonLoads (extractJson proseBraceSample) = none :=
  ⟨rfl, rfl, rfl⟩

/-- C3: the JSON Locator computes exactly the claimed steps: trim; delete
every occurrence of the json-tagged fence marker and then of the bare
marker; re-trim; return the greedy first-open-brace to last-close-brace
span when an opening brace is followed by a closing one, and the trimmed
fence-stripped text unchanged otherwise. -/
theorem extract_json_refines_spec (text : List Char) :
    extractJson text = extractJsonSpec text :=
  locator_match_eq_span _

/-- C6 amended: on a response text with no opening brace, heuristic 1 can
never fire, and the pipeline either terminates with the classified 502
repair-failed error or — when the fence-stripped trimmed text, possibly
after the trailing-comma replacement, is itself valid JSON — returns that
decoded value; no other outcome is possible. -/
theorem no_brace_text_classified (t : List Char) (h : '\x7b' ∉ t) :
    (extractJson t).count '\x7b' ≠ (extractJson t).count '\x7d' + 1 ∧
    (analyzeImage (Except.ok t) = Except.error unparseableOutputError ∨
     ∃ v, analyzeImage (Except.ok t) = Except.ok v ∧
       (jsonLoads (extractJson t) = some v ∨
        jsonLoads (trailingCommaClean (extractJson t)) = some v)) := by
  have hx : '\x7b' ∉ extractJson t := fun hm => h (mem_extractJson hm)
  have hc : (extractJson t).count '\x7b' = 0 := List.count_eq_zero.mpr hx
  refine ⟨by rw [hc]; omega, ?_⟩
  have hana : analyzeImage (Except.ok t) =
      (match jsonLoads (extractJson t) with
       | some v => Except.ok v
       | none => attemptRepair (extractJson t)) := rfl
  have hrep : attemptRepair (extractJson t) =
      (match jsonLoads (trailingCommaClean (extractJson t)) with
       | some v => Except.ok v
       | none => Except.error unparseableOutputError) := by
    unfold attemptRepair
    rw [hc, if_neg (by omega : ¬ (0 = (extractJson t).count '\x7d' + 1))]
  cases hj : jsonLoads (extractJson t) with
  | some v =>
    exact Or.inr ⟨v, by rw [hana, hj], Or.inl rfl⟩
  | none =>
    cases hj2 : jsonLoads (trailingCommaClean (extractJson t)) with
    | some v =>
      exact Or.inr ⟨v, by rw [hana, hj, hrep, hj2], Or.inr rfl⟩
    | none =>
      exact Or.inl (by rw [hana, hj, hrep, hj2])

/-- C6 amended, witness: the claim's own example prose, which has no brace
and no JSON reading, ends in the classified repair-failed error. -/
theorem no_brace_text_classified_witness :
    ('\x7b' ∉ noBraceSample) ∧
    ((extractJson noBraceSample).count '\x7b' ≠ (extractJson noBraceSample).count '\x7d' + 1 ∧
     (analyzeImage (Except.ok noBraceSample) = Except.error unparseableOutputError ∨
      ∃ v, analyzeImage (Except.ok noBraceSample) = Except.ok v ∧
        (jsonLoads (extractJson noBraceSample) = some v ∨
         jsonLoads (trailingCommaClean (extractJson noBraceSample)) = some v))) :=
  ⟨by decide, no_brace_text_classified noBraceSample (by decide)⟩

/-- C4: the Repair Engine equals the two-heuristic engine the claim
describes: heuristic 1 exactly when the brace counts differ by one,
heuristic 2 on the original candidate even after heuristic 1 failed, each
accepted only on a successful full re-decode, nothing else. -/
theorem attempt_repair_refines_spec (text : List Char) :
    attemptRepair text = repairEngineSpec text := by
  unfold attemptRepair repairEngineSpec
  cases h : (if text.count '\x7b' = text.count '\x7d' + 1
      then jsonLoads (text ++ ('\x7d' :: [])) else none) with
  | some v => simp [h, Option.orElse]
  | none => simp [h, Option.orElse]

end Veonix
